import Mathlib

/-!
Verification of the spektral message-passing layers TAGConv
(spektral/layers/convolutional/tag_conv.py) and EdgeConv
(spektral/layers/convolutional/edge_conv.py) against their
natural-language specification.

Scalars are modelled as rationals.  A node feature matrix is a list of
rows (one feature vector per node); a sparse adjacency is the list of its
edge index pairs together with the per-edge values, mirroring the sparse
tensor interface (indices, values) the layers consume.
-/

/-- A feature matrix: one feature vector (row) per node, in node order. -/
abbrev Mat := List (List ℚ)

/-- Modelled from the spec: SparseAdjacency — a set of directed edges, each
edge a (source index, target index) pair into the node feature matrix,
together with the per-edge scalar values (weights), in edge order.  This is
the (indices, values) view of the host sparse tensor that the layers use. -/
structure SparseAdjacency where
  edges : List (Nat × Nat)
  values : List ℚ

/-- Modelled from the spec: MessagePassing.get_sources — gather the feature
vectors at the source index of each edge, one row per edge, in edge order. -/
def get_sources (a : SparseAdjacency) (x : Mat) : Mat :=
  a.edges.map (fun e => x.getD e.1 [])

/-- Modelled from the spec: MessagePassing.get_targets — gather the feature
vectors at the target index of each edge, one row per edge, in edge order. -/
def get_targets (a : SparseAdjacency) (x : Mat) : Mat :=
  a.edges.map (fun e => x.getD e.2 [])

/-- Elementwise difference of two feature vectors (x_j - x_i in the code). -/
def rowSub (u v : List ℚ) : List ℚ :=
  List.zipWith (fun s t => s - t) u v

/-- K.concatenate along the feature axis: rowwise concatenation of a list of
feature matrices (blocks). -/
def concatFeatures : List Mat → Mat
  | [] => []
  | m :: ms => ms.foldl (fun acc b => List.zipWith (fun r s => r ++ s) acc b) m

/-- The host framework's Dense layer (external collaborator): a learnable
affine map to a fixed number of units followed by an activation.  The kernel
and bias values are produced by the host initializers / training loop and are
carried as plain data; use_bias defaults to true as in the host framework. -/
structure DenseLayer where
  units : Nat
  activation : ℚ → ℚ := id
  useBias : Bool := true
  kernel : List (List ℚ) := []
  bias : List ℚ := []

/-- Row action of a Dense layer: output j (for j < units) is the activation of
the dot product of the input with kernel column j, plus bias j when use_bias
is set.  The output width is always the unit count. -/
def DenseLayer.apply (d : DenseLayer) (v : List ℚ) : List ℚ :=
  (List.range d.units).map (fun j =>
    d.activation
      ((List.zipWith (fun xi krow => xi * krow.getD j 0) v d.kernel).sum +
        (if d.useBias then d.bias.getD j 0 else 0)))

/-- Errors of the layer configuration / call contract, from the spec. -/
inductive LayerError where
  | configurationError
  | shapeMismatchError
  | indexOutOfRangeError
deriving DecidableEq, Repr

/-- Modelled from the spec: MessagePassing construction validates that the
aggregation mode is one of the supported set (sum, mean, max) and fails with
ConfigurationError otherwise. -/
def MessagePassing.validAggregate (aggregate : String) : Bool :=
  aggregate == "sum" || aggregate == "mean" || aggregate == "max"

/-- TAGConv layer state: the output channel count, the hop count K, and the
final Dense projection created at construction (spektral
tag_conv.py, TAGConv.__init__). -/
structure TAGConv where
  channels : Nat
  K : Int
  linear : DenseLayer

/-- TAGConv.__init__: forwards the aggregation mode to the MessagePassing
base, which validates it (modelled from the spec — message_passing.py is not
part of the excerpt) and raises ConfigurationError when unsupported; then
stores channels and K without any further check and creates the Dense
projection to channels with the layer's activation and use_bias.  The Dense
kernel and bias values come from the host initializers and are taken here as
parameters. -/
def TAGConv.init (channels : Nat) (K : Int) (aggregate : String)
    (activation : ℚ → ℚ) (use_bias : Bool)
    (kernel : List (List ℚ)) (bias : List ℚ) : Except LayerError TAGConv :=
  if MessagePassing.validAggregate aggregate then
    Except.ok
      { channels := channels
        K := K
        linear :=
          { units := channels
            activation := activation
            useBias := use_bias
            kernel := kernel
            bias := bias } }
  else
    Except.error LayerError.configurationError

/-- The output list built by TAGConv.call before the final projection: it is
initialized with the raw input features x, and the loop over range(K) appends
the result of propagate(x, a, edge_weight) at each hop.  propagate is the
inherited MessagePassing pipeline (repo code outside the excerpt), taken as a
function parameter; edge_weight is a.values as in the source. -/
def TAGConv.hopOutputs (l : TAGConv)
    (propagate : Mat → SparseAdjacency → List ℚ → Mat)
    (x : Mat) (a : SparseAdjacency) : List Mat :=
  let edge_weight := a.values
  (List.range l.K.toNat).foldl
    (fun output _ => output ++ [propagate x a edge_weight]) [x]

/-- TAGConv.call: concatenate the hop outputs along the feature axis and
apply the Dense projection (rowwise) to the result. -/
def TAGConv.call (l : TAGConv)
    (propagate : Mat → SparseAdjacency → List ℚ → Mat)
    (x : Mat) (a : SparseAdjacency) : Mat :=
  (concatFeatures (l.hopOutputs propagate x a)).map l.linear.apply

/-- TAGConv.message: gather the source features of each edge and scale each
gathered row by that edge's scalar weight (edge_weight[:, None] * x_j). -/
def TAGConv.message (a : SparseAdjacency) (x : Mat)
    (edge_weight : List ℚ) : Mat :=
  let x_j := get_sources a x
  List.zipWith (fun w xj => xj.map (fun t => w * t)) edge_weight x_j

/-- TAGConv.config: the serialized configuration mapping. -/
def TAGConv.config (l : TAGConv) : List (String × Nat) :=
  [("channels", l.channels)]

/-- Row sum of a square matrix: the (weighted) out-degree A.sum(1). -/
def rowSum {n : Nat} (A : Fin n → Fin n → ℚ) (i : Fin n) : ℚ :=
  ∑ j, A i j

/-- Matrix product of square rational matrices. -/
def matMul {n : Nat} (A B : Fin n → Fin n → ℚ) : Fin n → Fin n → ℚ :=
  fun i j => ∑ k, A i k * B k j

/-- Modelled from the spec: degree_power(A, -1/2) from spektral.utils (not in
the excerpt) — the diagonal matrix whose i-th entry is the degree of node i
raised to the power -1/2.  The scalar map rsqrt stands for x ↦ x^(-1/2) of
the host numeric library (with its convention that an infinite entry, from a
zero degree, is replaced by 0). -/
def degreePowerNegHalf {n : Nat} (rsqrt : ℚ → ℚ)
    (A : Fin n → Fin n → ℚ) : Fin n → Fin n → ℚ :=
  fun i j => if i = j then rsqrt (rowSum A i) else 0

/-- Modelled from the spec: normalized_adjacency from spektral.utils (not in
the excerpt) — symmetric degree normalization: D^(-1/2).dot(A).dot(D^(-1/2)). -/
def normalized_adjacency {n : Nat} (rsqrt : ℚ → ℚ)
    (A : Fin n → Fin n → ℚ) : Fin n → Fin n → ℚ :=
  matMul (matMul (degreePowerNegHalf rsqrt A) A) (degreePowerNegHalf rsqrt A)

/-- TAGConv.preprocess: returns normalized_adjacency(a). -/
def TAGConv.preprocess {n : Nat} (rsqrt : ℚ → ℚ)
    (A : Fin n → Fin n → ℚ) : Fin n → Fin n → ℚ :=
  normalized_adjacency rsqrt A

/-- EdgeConv layer state (spektral edge_conv.py, EdgeConv.__init__): output
channel count, hidden widths of the internal MLP (empty when the constructor
argument was None), the MLP hidden activation, the layer activation and the
configured use_bias flag. -/
structure EdgeConv where
  channels : Nat
  mlp_hidden : List Nat
  mlp_activation : ℚ → ℚ
  activation : ℚ → ℚ
  use_bias : Bool

/-- EdgeConv.build: creates the MLP as a sequential stack of Dense layers —
one Dense per hidden width using the MLP activation (use_bias is not passed,
so the host default true applies), followed by a final Dense to channels
using the layer's activation and its configured use_bias.  Kernel and bias
values are produced by the host initializers and are left at their defaults
here, as no claim depends on them. -/
def EdgeConv.build (l : EdgeConv) : List DenseLayer :=
  (l.mlp_hidden.map (fun h =>
      { units := h, activation := l.mlp_activation : DenseLayer })) ++
    [{ units := l.channels
       activation := l.activation
       useBias := l.use_bias : DenseLayer }]

/-- EdgeConv.message: gather target features x_i and source features x_j,
concatenate x_i with (x_j - x_i) along the feature axis, and feed the result
through the MLP.  The argument mlp stands for the built self.mlp applied
rowwise (its learned weights are host-side data). -/
def EdgeConv.message (mlp : List ℚ → List ℚ)
    (a : SparseAdjacency) (x : Mat) : Mat :=
  let x_i := get_targets a x
  let x_j := get_sources a x
  (concatFeatures [x_i, List.zipWith rowSub x_j x_i]).map mlp

/-! ## Helper lemmas -/

theorem foldl_append_replicate {α : Type} (v : α) (k : Nat) :
    ∀ init : List α,
      (List.range k).foldl (fun acc _ => acc ++ [v]) init =
        init ++ List.replicate k v := by
  induction k with
  | zero => intro init; simp
  | succ m ih =>
      intro init
      rw [List.range_succ, List.foldl_append, ih]
      simp [List.replicate_succ', List.append_assoc]

theorem TAGConv.hopOutputs_eq (l : TAGConv)
    (propagate : Mat → SparseAdjacency → List ℚ → Mat)
    (x : Mat) (a : SparseAdjacency) :
    l.hopOutputs propagate x a =
      x :: List.replicate l.K.toNat (propagate x a a.values) := by
  unfold TAGConv.hopOutputs
  rw [foldl_append_replicate]
  rfl

theorem zipWith_map_same {α β γ δ : Type} (f : β → γ → δ) (g : α → β)
    (h : α → γ) : ∀ l : List α,
      List.zipWith f (l.map g) (l.map h) = l.map (fun u => f (g u) (h u))
  | [] => rfl
  | u :: t => by
      simp only [List.map_cons, List.zipWith_cons_cons]
      rw [zipWith_map_same f g h t]

theorem getD_map_of_lt {α β : Type} (f : α → β) (l : List α) (d : β)
    (e : Nat) (he : e < l.length) :
    (l.map f).getD e d = f (l.get ⟨e, he⟩) := by
  rw [List.getD_eq_getElem?_getD, List.getElem?_map,
    List.getElem?_eq_getElem he]
  simp

theorem getD_zipWith_of_lt {α β γ : Type} (f : α → β → γ) (l1 : List α)
    (l2 : List β) (d : γ) (e : Nat) (h1 : e < l1.length)
    (h2 : e < l2.length) :
    (List.zipWith f l1 l2).getD e d = f (l1.get ⟨e, h1⟩) (l2.get ⟨e, h2⟩) := by
  have hlen : e < (List.zipWith f l1 l2).length := by
    rw [List.length_zipWith]; omega
  rw [List.getD_eq_getElem?_getD, List.getElem?_eq_getElem hlen]
  simp [List.getElem_zipWith, List.get_eq_getElem]

theorem EdgeConv.message_eq_map (mlp : List ℚ → List ℚ)
    (a : SparseAdjacency) (x : Mat) :
    EdgeConv.message mlp a x =
      a.edges.map (fun ed =>
        mlp (x.getD ed.2 [] ++ rowSub (x.getD ed.1 []) (x.getD ed.2 []))) := by
  unfold EdgeConv.message get_sources get_targets concatFeatures
  simp only [List.foldl_cons, List.foldl_nil]
  rw [zipWith_map_same, zipWith_map_same, List.map_map]
  rfl

theorem rowSub_self (v : List ℚ) : rowSub v v = List.replicate v.length 0 := by
  induction v with
  | nil => rfl
  | cons h t ih =>
      simp only [rowSub] at ih ⊢
      simp [List.replicate_succ, ih]

/-! ## Claim theorems -/

/-- C1: TAGConv.call starts the output list with the raw input features x,
performs exactly K propagate calls, each invoked with the original x, a and
the edge weights a.values (never the previous hop's output), appends each
result, concatenates the K+1 blocks along the feature axis, and returns the
learnable Dense projection of that concatenation. -/
theorem TAGConv.call_spec (l : TAGConv)
    (propagate : Mat → SparseAdjacency → List ℚ → Mat)
    (x : Mat) (a : SparseAdjacency) (k : Nat) (hK : l.K = (k : Int)) :
    l.call propagate x a =
      (concatFeatures (x :: List.replicate k (propagate x a a.values))).map
        l.linear.apply := by
  unfold TAGConv.call
  rw [TAGConv.hopOutputs_eq, hK]
  simp

theorem TAGConv.call_spec_witness :
    TAGConv.call ⟨1, 3, { units := 1 }⟩ (fun x _ _ => x) [[2]] ⟨[], []⟩ =
      (concatFeatures ([[2]] :: List.replicate 3 ([[2]] : Mat))).map
        (DenseLayer.apply { units := 1 }) :=
  TAGConv.call_spec ⟨1, 3, { units := 1 }⟩ (fun x _ _ => x) [[2]] ⟨[], []⟩ 3 rfl

/-- C2: the EdgeConv message on edge e is the MLP applied to the gathered
target features concatenated with the difference of gathered source and
target features: mlp (x_i ++ (x_j - x_i)). -/
theorem EdgeConv.message_spec (mlp : List ℚ → List ℚ) (a : SparseAdjacency)
    (x : Mat) (e : Nat) (he : e < a.edges.length) :
    (EdgeConv.message mlp a x).getD e [] =
      mlp (x.getD (a.edges.get ⟨e, he⟩).2 [] ++
        rowSub (x.getD (a.edges.get ⟨e, he⟩).1 [])
          (x.getD (a.edges.get ⟨e, he⟩).2 [])) := by
  rw [EdgeConv.message_eq_map, getD_map_of_lt _ _ _ e he]

theorem EdgeConv.message_spec_witness :
    (EdgeConv.message id ⟨[(0, 1)], [1]⟩ [[1, 2], [3, 4]]).getD 0 [] =
      id (([[1, 2], [3, 4]] : Mat).getD 1 [] ++
        rowSub (([[1, 2], [3, 4]] : Mat).getD 0 [])
          (([[1, 2], [3, 4]] : Mat).getD 1 [])) :=
  EdgeConv.message_spec id ⟨[(0, 1)], [1]⟩ [[1, 2], [3, 4]] 0 (by decide)

/-- C3 (amended): TAGConv construction validates only the aggregation mode —
it fails with ConfigurationError exactly when the mode is unsupported; a hop
count K less than or equal to 0 and an invalid channel count are accepted at
construction without any error. -/
theorem TAGConv.init_checks_only_aggregate (channels : Nat) (K : Int)
    (aggregate : String) (activation : ℚ → ℚ) (use_bias : Bool)
    (kernel : List (List ℚ)) (bias : List ℚ) :
    (TAGConv.init channels K aggregate activation use_bias
        kernel bias).toOption.isSome =
      MessagePassing.validAggregate aggregate := by
  unfold TAGConv.init
  split <;> simp_all [Except.toOption]

/-- C3 counterexample: constructing TAGConv with hop count K = -1 (so K ≤ 0)
and channel count 0 succeeds — no ConfigurationError is raised at
construction time, contrary to the claim. -/
theorem TAGConv.init_accepts_nonpositive_K :
    TAGConv.init 0 (-1) "sum" id true [] [] =
      Except.ok ⟨0, -1, ⟨0, id, true, [], []⟩⟩ := by
  rfl

/-- C4: on a self-loop edge (source index = target index) the EdgeConv
message equals mlp (x_i ++ zero vector): the difference block is identically
zero, so the message does not depend on the source gather beyond x_j = x_i. -/
theorem EdgeConv.message_self_loop (mlp : List ℚ → List ℚ)
    (a : SparseAdjacency) (x : Mat) (e : Nat) (he : e < a.edges.length)
    (hself : (a.edges.get ⟨e, he⟩).1 = (a.edges.get ⟨e, he⟩).2) :
    (EdgeConv.message mlp a x).getD e [] =
      mlp (x.getD (a.edges.get ⟨e, he⟩).2 [] ++
        List.replicate (x.getD (a.edges.get ⟨e, he⟩).2 []).length 0) := by
  rw [EdgeConv.message_eq_map, getD_map_of_lt _ _ _ e he, hself, rowSub_self]

theorem EdgeConv.message_self_loop_witness :
    (EdgeConv.message id ⟨[(1, 1)], [1]⟩ [[1, 2], [3, 4]]).getD 0 [] =
      id (([[1, 2], [3, 4]] : Mat).getD 1 [] ++
        List.replicate (([[1, 2], [3, 4]] : Mat).getD 1 []).length 0) :=
  EdgeConv.message_self_loop id ⟨[(1, 1)], [1]⟩ [[1, 2], [3, 4]] 0
    (by decide) rfl

/-- C5: the TAGConv message on edge e is the gathered source feature vector
multiplied elementwise by that edge's scalar weight. -/
theorem TAGConv.message_scaled_sources (a : SparseAdjacency) (x : Mat)
    (edge_weight : List ℚ) (e : Nat) (hw : e < edge_weight.length)
    (he : e < a.edges.length) :
    (TAGConv.message a x edge_weight).getD e [] =
      (x.getD (a.edges.get ⟨e, he⟩).1 []).map
        (fun t => edge_weight.get ⟨e, hw⟩ * t) := by
  unfold TAGConv.message get_sources
  have h2 : e < (a.edges.map (fun ed => x.getD ed.1 [])).length := by
    simpa using he
  rw [getD_zipWith_of_lt _ _ _ _ e hw h2]
  simp [List.get_eq_getElem, List.getElem_map]

theorem TAGConv.message_scaled_sources_witness :
    (TAGConv.message ⟨[(0, 1)], [9]⟩ [[1, 2]] [3]).getD 0 [] =
      (([[1, 2]] : Mat).getD 0 []).map (fun t => (3 : ℚ) * t) :=
  TAGConv.message_scaled_sources ⟨[(0, 1)], [9]⟩ [[1, 2]] [3] 0 (by decide) (by decide)

/-- C6: TAGConv.preprocess is the symmetric degree normalization
D^(-1/2) A D^(-1/2) — entry (i, j) equals rsqrt(deg i) * A i j * rsqrt(deg j)
— and the hop loop of TAGConv.call hands the very same adjacency and edge
weights to every one of the K propagate calls, so the normalization is
applied once, before any hop, and never re-applied per hop. -/
theorem TAGConv.preprocess_spec :
    (∀ (n : Nat) (rsqrt : ℚ → ℚ) (A : Fin n → Fin n → ℚ) (i j : Fin n),
        TAGConv.preprocess rsqrt A i j =
          rsqrt (rowSum A i) * A i j * rsqrt (rowSum A j)) ∧
      (∀ (l : TAGConv) (propagate : Mat → SparseAdjacency → List ℚ → Mat)
          (x : Mat) (a : SparseAdjacency),
        l.hopOutputs propagate x a =
          x :: List.replicate l.K.toNat (propagate x a a.values)) := by
  refine ⟨fun n rsqrt A i j => ?_, TAGConv.hopOutputs_eq⟩
  unfold TAGConv.preprocess normalized_adjacency matMul degreePowerNegHalf
  simp only [ite_mul, mul_ite, zero_mul, mul_zero, Finset.sum_ite_eq,
    Finset.sum_ite_eq', Finset.mem_univ, if_true]

/-- C7: every row of the TAGConv output has width exactly the configured
channel count, for every hop count K, every input feature width and every
propagate function. -/
theorem TAGConv.call_width (channels : Nat) (K : Int) (aggregate : String)
    (activation : ℚ → ℚ) (use_bias : Bool) (kernel : List (List ℚ))
    (bias : List ℚ) (l : TAGConv)
    (hinit : TAGConv.init channels K aggregate activation use_bias kernel
        bias = Except.ok l)
    (propagate : Mat → SparseAdjacency → List ℚ → Mat) (x : Mat)
    (a : SparseAdjacency) (row : List ℚ)
    (hrow : row ∈ l.call propagate x a) :
    row.length = channels := by
  have hunits : l.linear.units = channels := by
    unfold TAGConv.init at hinit
    split at hinit
    · cases hinit; rfl
    · cases hinit
  unfold TAGConv.call at hrow
  rcases List.mem_map.mp hrow with ⟨r, _, rfl⟩
  unfold DenseLayer.apply
  simp [hunits]

theorem TAGConv.call_width_witness :
    (([0, 0] : List ℚ)).length = 2 :=
  TAGConv.call_width 2 1 "sum" id true [] [] ⟨2, 1, ⟨2, id, true, [], []⟩⟩ rfl
    (fun x _ _ => x) [[5]] ⟨[], []⟩ [0, 0] (by
      simp [TAGConv.call, TAGConv.hopOutputs, concatFeatures,
        DenseLayer.apply, List.range_succ])

/-- C8: the hop-0 block — the first element of the list that TAGConv.call
concatenates before the final Dense projection — is the unmodified input
feature matrix, for all inputs. -/
theorem TAGConv.hop0_block (l : TAGConv)
    (propagate : Mat → SparseAdjacency → List ℚ → Mat)
    (x : Mat) (a : SparseAdjacency) :
    (l.hopOutputs propagate x a).head? = some x := by
  rw [TAGConv.hopOutputs_eq]
  rfl

/-- C9: in the EdgeConv MLP, every hidden Dense layer is created with a bias
term (use_bias is not passed to it, so the host default true applies), while
the final Dense layer to channels carries the layer's configured use_bias,
including when that setting is false. -/
theorem EdgeConv.build_bias (l : EdgeConv) :
    (∀ d ∈ (EdgeConv.build l).dropLast, d.useBias = true) ∧
      (EdgeConv.build l).getLast?.map DenseLayer.useBias =
        some l.use_bias := by
  constructor
  · intro d hd
    unfold EdgeConv.build at hd
    rw [List.dropLast_concat] at hd
    rcases List.mem_map.mp hd with ⟨h0, _, rfl⟩
    rfl
  · unfold EdgeConv.build
    rw [List.getLast?_concat]
    rfl

theorem EdgeConv.build_bias_witness :
    DenseLayer.useBias { units := 2, activation := id : DenseLayer } = true ∧
      (EdgeConv.build ⟨1, [2], id, id, false⟩).getLast?.map
          DenseLayer.useBias = some false :=
  ⟨(EdgeConv.build_bias ⟨1, [2], id, id, false⟩).1 _ (by
      simp [EdgeConv.build]),
    (EdgeConv.build_bias ⟨1, [2], id, id, false⟩).2⟩

/-- C10: TAGConv.config carries only the channels entry; any two layers with
the same channel count — in particular two layers differing only in their
hop count K — have equal config, so K is not recoverable from it. -/
theorem TAGConv.config_spec (l m : TAGConv) (h : l.channels = m.channels) :
    TAGConv.config l = TAGConv.config m ∧
      TAGConv.config l = [("channels", l.channels)] := by
  unfold TAGConv.config
  rw [h]
  exact ⟨rfl, rfl⟩

theorem TAGConv.config_spec_witness :
    TAGConv.config ⟨4, 2, { units := 4 }⟩ =
        TAGConv.config ⟨4, 7, { units := 4 }⟩ ∧
      TAGConv.config ⟨4, 2, { units := 4 }⟩ = [("channels", 4)] :=
  TAGConv.config_spec ⟨4, 2, { units := 4 }⟩ ⟨4, 7, { units := 4 }⟩ rfl
